import Mathlib

/-!
# Verification of the `replacinator` in-place rewriting string cursor

A shallow embedding of `src/lib.rs` (crate `replacinator`). Strings are
lists of bytes (`List Nat`, each byte < 256 in valid data); Rust `char`
values are Unicode scalar values embedded as `Nat`. Operations that can
panic in Rust (slice-bounds faults, `assert!`, `expect`) are embedded in
`Except Replacinator`, where the `error` payload is the state of the
cursor at the moment of the panic (so that unwinding and `Drop` can be
reasoned about).
-/

/-- Byte length of the UTF-8 encoding of scalar value `c`
(Rust `char::len_utf8`). -/
def utf8Len (c : Nat) : Nat :=
  if c < 128 then 1
  else if c < 2048 then 2
  else if c < 65536 then 3
  else 4

/-- The value `c` is a Unicode scalar value: in range and not a surrogate
(the values representable by a Rust `char`). -/
def IsScalar (c : Nat) : Prop :=
  c < 1114112 ∧ (c < 55296 ∨ 57344 ≤ c)

instance (c : Nat) : Decidable (IsScalar c) := by
  unfold IsScalar; infer_instance

/-- The UTF-8 encoding of scalar value `c` (the bytes that Rust's
`char::encode_utf8` writes). -/
def encodeChar (c : Nat) : List Nat :=
  if c < 128 then [c]
  else if c < 2048 then [192 + c / 64, 128 + c % 64]
  else if c < 65536 then [224 + c / 4096, 128 + c / 64 % 64, 128 + c % 64]
  else [240 + c / 262144, 128 + c / 4096 % 64, 128 + c / 64 % 64, 128 + c % 64]

/-- Decoder continuation for a two-byte UTF-8 sequence with lead byte `b0`. -/
def decodeTail2 (b0 : Nat) : List Nat → Option (Nat × Nat)
  | b1 :: _ =>
    if 128 ≤ b1 ∧ b1 < 192 then some ((b0 - 192) * 64 + (b1 - 128), 2) else none
  | [] => none

/-- Decoder continuation for a three-byte UTF-8 sequence with lead byte `b0`. -/
def decodeTail3 (b0 : Nat) : List Nat → Option (Nat × Nat)
  | b1 :: b2 :: _ =>
    if (128 ≤ b1 ∧ b1 < 192) ∧ (128 ≤ b2 ∧ b2 < 192) then
      if 2048 ≤ (b0 - 224) * 4096 + (b1 - 128) * 64 + (b2 - 128) ∧
          ((b0 - 224) * 4096 + (b1 - 128) * 64 + (b2 - 128) < 55296 ∨
           57344 ≤ (b0 - 224) * 4096 + (b1 - 128) * 64 + (b2 - 128)) then
        some ((b0 - 224) * 4096 + (b1 - 128) * 64 + (b2 - 128), 3)
      else none
    else none
  | _ => none

/-- Decoder continuation for a four-byte UTF-8 sequence with lead byte `b0`. -/
def decodeTail4 (b0 : Nat) : List Nat → Option (Nat × Nat)
  | b1 :: b2 :: b3 :: _ =>
    if (128 ≤ b1 ∧ b1 < 192) ∧ (128 ≤ b2 ∧ b2 < 192) ∧ (128 ≤ b3 ∧ b3 < 192) then
      if 65536 ≤ (b0 - 240) * 262144 + (b1 - 128) * 4096 + (b2 - 128) * 64 + (b3 - 128) ∧
          (b0 - 240) * 262144 + (b1 - 128) * 4096 + (b2 - 128) * 64 + (b3 - 128) < 1114112 then
        some ((b0 - 240) * 262144 + (b1 - 128) * 4096 + (b2 - 128) * 64 + (b3 - 128), 4)
      else none
    else none
  | _ => none

/-- Decode the first UTF-8 character of a byte list, with full validation
(continuation-byte shape, no overlong forms, no surrogates, max scalar).
Returns the scalar value and the number of bytes consumed. This is the
decoding that Rust's `str::chars` performs on a valid `&str`, together
with the validation that `core::str::from_utf8` performs. -/
def decodeChar : List Nat → Option (Nat × Nat)
  | [] => none
  | b0 :: rest =>
    if b0 < 128 then some (b0, 1)
    else if b0 < 194 then none
    else if b0 < 224 then decodeTail2 b0 rest
    else if b0 < 240 then decodeTail3 b0 rest
    else if b0 < 245 then decodeTail4 b0 rest
    else none

/-- A byte list is valid UTF-8: it is a concatenation of encodings of
scalar values (the meaning of Rust's `str` invariant). -/
inductive ValidUtf8 : List Nat → Prop where
  | nil : ValidUtf8 []
  | cons (c : Nat) (rest : List Nat) : IsScalar c → ValidUtf8 rest →
      ValidUtf8 (encodeChar c ++ rest)

theorem utf8Len_pos (c : Nat) : 1 ≤ utf8Len c := by
  unfold utf8Len
  split <;> [omega; split <;> [omega; split <;> omega]]

theorem encodeChar_length (c : Nat) : (encodeChar c).length = utf8Len c := by
  unfold encodeChar utf8Len
  split
  · simp
  · split
    · simp
    · split <;> simp

/-- Decoding the encoding of a scalar value (followed by anything)
recovers the scalar value and its encoded length. -/
theorem decodeChar_encodeChar (c : Nat) (hc : IsScalar c) (rest : List Nat) :
    decodeChar (encodeChar c ++ rest) = some (c, utf8Len c) := by
  obtain ⟨hlt, hsur⟩ := hc
  by_cases h1 : c < 128
  · have he : encodeChar c = [c] := by unfold encodeChar; rw [if_pos h1]
    have hl : utf8Len c = 1 := by unfold utf8Len; rw [if_pos h1]
    rw [he, hl]
    simp only [List.cons_append, List.nil_append, decodeChar]
    rw [if_pos h1]
  · by_cases h2 : c < 2048
    · have he : encodeChar c = [192 + c / 64, 128 + c % 64] := by
        unfold encodeChar; rw [if_neg h1, if_pos h2]
      have hl : utf8Len c = 2 := by unfold utf8Len; rw [if_neg h1, if_pos h2]
      rw [he, hl]
      simp only [List.cons_append, List.nil_append, decodeChar]
      rw [if_neg (by omega), if_neg (by omega), if_pos (by omega)]
      simp only [decodeTail2]
      rw [if_pos (by omega)]
      simp only [Option.some.injEq, Prod.mk.injEq, and_true]
      omega
    · by_cases h3 : c < 65536
      · have he : encodeChar c = [224 + c / 4096, 128 + c / 64 % 64, 128 + c % 64] := by
          unfold encodeChar; rw [if_neg h1, if_neg h2, if_pos h3]
        have hl : utf8Len c = 3 := by unfold utf8Len; rw [if_neg h1, if_neg h2, if_pos h3]
        rw [he, hl]
        simp only [List.cons_append, List.nil_append, decodeChar]
        rw [if_neg (by omega), if_neg (by omega), if_neg (by omega), if_pos (by omega)]
        simp only [decodeTail3]
        rw [if_pos (by omega), if_pos (by omega)]
        simp only [Option.some.injEq, Prod.mk.injEq, and_true]
        omega
      · have he : encodeChar c =
            [240 + c / 262144, 128 + c / 4096 % 64, 128 + c / 64 % 64, 128 + c % 64] := by
          unfold encodeChar; rw [if_neg h1, if_neg h2, if_neg h3]
        have hl : utf8Len c = 4 := by unfold utf8Len; rw [if_neg h1, if_neg h2, if_neg h3]
        rw [he, hl]
        simp only [List.cons_append, List.nil_append, decodeChar]
        rw [if_neg (by omega), if_neg (by omega), if_neg (by omega), if_neg (by omega),
          if_pos (by omega)]
        simp only [decodeTail4]
        rw [if_pos (by omega), if_pos (by omega)]
        simp only [Option.some.injEq, Prod.mk.injEq, and_true]
        omega

/-- Soundness of the decoder: a successful decode yields a scalar value,
consumes exactly its encoded length, and the consumed bytes are exactly
its encoding. -/
theorem decodeChar_sound (l : List Nat) (c n : Nat) (h : decodeChar l = some (c, n)) :
    IsScalar c ∧ n = utf8Len c ∧ l = encodeChar c ++ l.drop n := by
  unfold decodeChar at h
  split at h
  · exact absurd h (by simp)
  · rename_i b0 rest
    split at h
    · rename_i h1
      simp only [Option.some.injEq, Prod.mk.injEq] at h
      obtain ⟨rfl, rfl⟩ := h
      refine ⟨⟨by omega, by omega⟩, ?_, ?_⟩
      · unfold utf8Len; rw [if_pos h1]
      · have he : encodeChar b0 = [b0] := by unfold encodeChar; rw [if_pos h1]
        simp [he]
    · split at h
      · exact absurd h (by simp)
      · split at h
        · -- two-byte sequence
          rename_i h1 h2 h3
          unfold decodeTail2 at h
          split at h
          · rename_i b1 tl
            split at h
            · rename_i hb1
              simp only [Option.some.injEq, Prod.mk.injEq] at h
              obtain ⟨rfl, rfl⟩ := h
              refine ⟨⟨by omega, by omega⟩, ?_, ?_⟩
              · unfold utf8Len; rw [if_neg (by omega), if_pos (by omega)]
              · have he : encodeChar ((b0 - 192) * 64 + (b1 - 128)) =
                    [192 + ((b0 - 192) * 64 + (b1 - 128)) / 64,
                     128 + ((b0 - 192) * 64 + (b1 - 128)) % 64] := by
                  unfold encodeChar; rw [if_neg (by omega), if_pos (by omega)]
                rw [he]
                have e1 : 192 + ((b0 - 192) * 64 + (b1 - 128)) / 64 = b0 := by omega
                have e2 : 128 + ((b0 - 192) * 64 + (b1 - 128)) % 64 = b1 := by omega
                rw [e1, e2]
                simp
            · exact absurd h (by simp)
          · exact absurd h (by simp)
        · split at h
          · -- three-byte sequence
            rename_i h1 h2 h3 h4
            unfold decodeTail3 at h
            split at h
            · rename_i b1 b2 tl
              split at h
              · rename_i hb
                split at h
                · rename_i hr
                  simp only [Option.some.injEq, Prod.mk.injEq] at h
                  obtain ⟨rfl, rfl⟩ := h
                  refine ⟨⟨by omega, by omega⟩, ?_, ?_⟩
                  · unfold utf8Len
                    rw [if_neg (by omega), if_neg (by omega), if_pos (by omega)]
                  · have he : encodeChar ((b0 - 224) * 4096 + (b1 - 128) * 64 + (b2 - 128)) =
                        [224 + ((b0 - 224) * 4096 + (b1 - 128) * 64 + (b2 - 128)) / 4096,
                         128 + ((b0 - 224) * 4096 + (b1 - 128) * 64 + (b2 - 128)) / 64 % 64,
                         128 + ((b0 - 224) * 4096 + (b1 - 128) * 64 + (b2 - 128)) % 64] := by
                      unfold encodeChar
                      rw [if_neg (by omega), if_neg (by omega), if_pos (by omega)]
                    rw [he]
                    have e1 : 224 + ((b0 - 224) * 4096 + (b1 - 128) * 64 + (b2 - 128)) / 4096
                        = b0 := by omega
                    have e2 : 128 + ((b0 - 224) * 4096 + (b1 - 128) * 64 + (b2 - 128)) / 64 % 64
                        = b1 := by omega
                    have e3 : 128 + ((b0 - 224) * 4096 + (b1 - 128) * 64 + (b2 - 128)) % 64
                        = b2 := by omega
                    rw [e1, e2, e3]
                    simp
                · exact absurd h (by simp)
              · exact absurd h (by simp)
            · exact absurd h (by simp)
          · split at h
            · -- four-byte sequence
              rename_i h1 h2 h3 h4 h5
              unfold decodeTail4 at h
              split at h
              · rename_i b1 b2 b3 tl
                split at h
                · rename_i hb
                  split at h
                  · rename_i hr
                    simp only [Option.some.injEq, Prod.mk.injEq] at h
                    obtain ⟨rfl, rfl⟩ := h
                    refine ⟨⟨by omega, by omega⟩, ?_, ?_⟩
                    · unfold utf8Len
                      rw [if_neg (by omega), if_neg (by omega), if_neg (by omega)]
                    · have he : encodeChar ((b0 - 240) * 262144 + (b1 - 128) * 4096 +
                          (b2 - 128) * 64 + (b3 - 128)) =
                          [240 + ((b0 - 240) * 262144 + (b1 - 128) * 4096 + (b2 - 128) * 64 +
                             (b3 - 128)) / 262144,
                           128 + ((b0 - 240) * 262144 + (b1 - 128) * 4096 + (b2 - 128) * 64 +
                             (b3 - 128)) / 4096 % 64,
                           128 + ((b0 - 240) * 262144 + (b1 - 128) * 4096 + (b2 - 128) * 64 +
                             (b3 - 128)) / 64 % 64,
                           128 + ((b0 - 240) * 262144 + (b1 - 128) * 4096 + (b2 - 128) * 64 +
                             (b3 - 128)) % 64] := by
                        unfold encodeChar
                        rw [if_neg (by omega), if_neg (by omega), if_neg (by omega)]
                      rw [he]
                      have e1 : 240 + ((b0 - 240) * 262144 + (b1 - 128) * 4096 +
                          (b2 - 128) * 64 + (b3 - 128)) / 262144 = b0 := by omega
                      have e2 : 128 + ((b0 - 240) * 262144 + (b1 - 128) * 4096 +
                          (b2 - 128) * 64 + (b3 - 128)) / 4096 % 64 = b1 := by omega
                      have e3 : 128 + ((b0 - 240) * 262144 + (b1 - 128) * 4096 +
                          (b2 - 128) * 64 + (b3 - 128)) / 64 % 64 = b2 := by omega
                      have e4 : 128 + ((b0 - 240) * 262144 + (b1 - 128) * 4096 +
                          (b2 - 128) * 64 + (b3 - 128)) % 64 = b3 := by omega
                      rw [e1, e2, e3, e4]
                      simp
                  · exact absurd h (by simp)
                · exact absurd h (by simp)
              · exact absurd h (by simp)
            · exact absurd h (by simp)

theorem ValidUtf8.append {a b : List Nat} (ha : ValidUtf8 a) (hb : ValidUtf8 b) :
    ValidUtf8 (a ++ b) := by
  induction ha with
  | nil => simpa using hb
  | cons c rest hc _ ih =>
    rw [List.append_assoc]
    exact ValidUtf8.cons c (rest ++ b) hc ih

theorem validUtf8_encodeChar (c : Nat) (hc : IsScalar c) : ValidUtf8 (encodeChar c) := by
  have := ValidUtf8.cons c [] hc ValidUtf8.nil
  simpa using this

theorem validUtf8_replicate_space (n : Nat) : ValidUtf8 (List.replicate n 32) := by
  induction n with
  | zero => exact ValidUtf8.nil
  | succ k ih =>
    have h32 : encodeChar 32 = [32] := by unfold encodeChar; rw [if_pos (by omega)]
    have := ValidUtf8.cons 32 (List.replicate k 32) (by decide) ih
    rw [h32] at this
    simpa [List.replicate_succ] using this

theorem validUtf8_ascii (l : List Nat) (h : ∀ b ∈ l, b < 128) : ValidUtf8 l := by
  induction l with
  | nil => exact ValidUtf8.nil
  | cons b t ih =>
    have hb : b < 128 := h b (by simp)
    have he : encodeChar b = [b] := by unfold encodeChar; rw [if_pos hb]
    have := ValidUtf8.cons b t ⟨by omega, by omega⟩ (ih fun x hx => h x (by simp [hx]))
    rw [he] at this
    simpa using this

/-- The head decode of a non-empty valid UTF-8 list succeeds, and the tail
after the decoded character is again valid. -/
theorem ValidUtf8.head_decode {l : List Nat} (h : ValidUtf8 l) (hne : l ≠ []) :
    ∃ c, IsScalar c ∧ decodeChar l = some (c, utf8Len c) ∧
      ValidUtf8 (l.drop (utf8Len c)) := by
  cases h with
  | nil => exact absurd rfl hne
  | cons c rest hc hr =>
    refine ⟨c, hc, decodeChar_encodeChar c hc rest, ?_⟩
    have hd : (encodeChar c ++ rest).drop (utf8Len c) = rest := by
      rw [← encodeChar_length c]
      exact List.drop_left (encodeChar c) rest
    rw [hd]
    exact hr

/-- A successful decode out of a valid UTF-8 list leaves a valid tail. -/
theorem ValidUtf8.drop_decode {l : List Nat} {c n : Nat} (h : ValidUtf8 l)
    (hd : decodeChar l = some (c, n)) : ValidUtf8 (l.drop n) := by
  have hne : l ≠ [] := by
    intro he
    rw [he] at hd
    simp [decodeChar] at hd
  obtain ⟨c', _, hd', hv⟩ := h.head_decode hne
  rw [hd'] at hd
  simp only [Option.some.injEq, Prod.mk.injEq] at hd
  obtain ⟨rfl, rfl⟩ := hd
  exact hv

/-- A valid UTF-8 list decodes `none` only when it is empty. -/
theorem ValidUtf8.decode_none {l : List Nat} (h : ValidUtf8 l)
    (hd : decodeChar l = none) : l = [] := by
  by_contra hne
  obtain ⟨c, _, hd', _⟩ := h.head_decode hne
  rw [hd'] at hd
  exact absurd hd (by simp)

/-- Overwrite the bytes of `l` at offsets `i, i+1, ...` with the bytes of
`bs`, leaving everything else in place. This is the effect on the full
buffer of writing `bs` through a mutable subslice starting at offset `i`
(as `char::encode_utf8` and `slice::fill` do in the source). -/
def writeBytes (l : List Nat) (i : Nat) (bs : List Nat) : List Nat :=
  l.take i ++ bs ++ l.drop (i + bs.length)

theorem writeBytes_length (l bs : List Nat) (i : Nat) (h : i + bs.length ≤ l.length) :
    (writeBytes l i bs).length = l.length := by
  simp [writeBytes]
  omega

theorem writeBytes_take_of_le (l bs : List Nat) (i j : Nat) (hji : j ≤ i)
    (hil : i ≤ l.length) : (writeBytes l i bs).take j = l.take j := by
  unfold writeBytes
  rw [List.take_append_eq_append_take]
  have h1 : (l.take i ++ bs).take j = l.take j := by
    rw [List.take_append_eq_append_take, List.length_take]
    have : j - min i l.length = 0 := by omega
    rw [this]
    simp [List.take_take, Nat.min_def, hji]
  have h2 : j - (l.take i ++ bs).length = 0 := by
    simp [List.length_take]
    omega
  rw [h1, h2]
  simp

theorem writeBytes_drop_of_le (l bs : List Nat) (i j : Nat) (hij : i + bs.length ≤ j)
    (hil : i ≤ l.length) : (writeBytes l i bs).drop j = l.drop j := by
  unfold writeBytes
  rw [List.drop_append_eq_append_drop]
  have hlen : (l.take i ++ bs).length = i + bs.length := by
    simp [List.length_take]
    omega
  have h1 : (l.take i ++ bs).drop j = [] := by
    apply List.drop_eq_nil_of_le
    omega
  rw [h1, hlen, List.drop_drop]
  simp only [List.nil_append]
  congr 1
  omega

theorem writeBytes_take_write (l bs : List Nat) (i : Nat) (hil : i ≤ l.length) :
    (writeBytes l i bs).take (i + bs.length) = l.take i ++ bs := by
  unfold writeBytes
  apply List.take_left'
  simp [List.length_take]
  omega

theorem writeBytes_at_write (l bs : List Nat) (i : Nat) (hil : i ≤ l.length) :
    ((writeBytes l i bs).drop i).take bs.length = bs := by
  unfold writeBytes
  rw [List.drop_append_eq_append_drop]
  have hlen : (l.take i ++ bs).length = i + bs.length := by
    simp [List.length_take]
    omega
  have h1 : (l.take i ++ bs).drop i = bs := by
    rw [List.drop_append_eq_append_drop]
    have : (l.take i).drop i = [] := by
      apply List.drop_eq_nil_of_le
      simp [List.length_take]
    rw [this]
    have : i - (l.take i).length = 0 := by
      simp [List.length_take]
      omega
    rw [this]
    simp
  rw [h1, hlen]
  have : i - (i + bs.length) = 0 := by omega
  rw [this]
  simp [List.take_append_eq_append_take]

/-- The state of a `Replacinator` (`src/lib.rs`, lines 22-26): the byte
buffer behind the exclusively borrowed string slice, the read cursor and
the write cursor. -/
structure Replacinator where
  contents : List Nat
  read_position : Nat
  write_position : Nat
  deriving DecidableEq

namespace Replacinator

/-- Embeds `Replacinator::construct`: wrap a string's bytes with both cursors
at zero. -/
def construct (s : List Nat) : Replacinator :=
  { contents := s, read_position := 0, write_position := 0 }

/-- Embeds `Replacinator::check_invariants`: `assert!(write_position <= read_position)`
and the `read_position <= contents.len()` check; a failure is a panic,
carrying the current state. -/
def check_invariants (r : Replacinator) : Except Replacinator Replacinator :=
  if r.write_position ≤ r.read_position ∧ r.read_position ≤ r.contents.length then .ok r
  else .error r

/-- The bytes of `Replacinator::remainder` (the third section,
`contents[read_position..]`). -/
def remainder (r : Replacinator) : List Nat :=
  r.contents.drop r.read_position

/-- The bytes of the gap `contents[write_position..read_position]` returned
by `Replacinator::invalid_region` (after its `check_invariants` call). -/
def invalid_region (r : Replacinator) : Except Replacinator (List Nat) :=
  r.check_invariants.map fun s => (s.contents.take s.read_position).drop s.write_position

/-- Embeds `Replacinator::peek`: the first character of the remainder, without
consuming it. -/
def peek (r : Replacinator) : Option Nat :=
  (decodeChar r.remainder).map fun p => p.1

/-- Embeds `Replacinator::start`: view the string contents of the first section
(`contents[..write_position]`). It takes a shared borrow (`&self`), so the
cursor state is returned unchanged. -/
def start (r : Replacinator) : List Nat × Replacinator :=
  (r.contents.take r.write_position, r)

/-- Embeds `Replacinator::read_char`: decode the first character of the remainder;
if there is one, advance `read_position` by its encoded length; then
`check_invariants`. -/
def read_char (r : Replacinator) : Except Replacinator (Option Nat × Replacinator) :=
  match decodeChar r.remainder with
  | some p =>
    ({ r with read_position := r.read_position + utf8Len p.1 } : Replacinator).check_invariants.map
      fun s => (some p.1, s)
  | none => r.check_invariants.map fun s => (none, s)

/-- Embeds `Replacinator::write_char`: `c.encode_utf8(self.invalid_region())`,
then `write_position += c.len_utf8()`, then `check_invariants`.
`invalid_region` runs `check_invariants` first; `char::encode_utf8`
pattern-matches the destination slice against the needed length before
writing any byte, and panics (leaving the buffer untouched) when the gap
`read_position - write_position` is too small. -/
def write_char (r : Replacinator) (c : Nat) : Except Replacinator Replacinator :=
  r.check_invariants.bind fun s =>
    if utf8Len c ≤ s.read_position - s.write_position then
      ({ s with
          contents := writeBytes s.contents s.write_position (encodeChar c),
          write_position := s.write_position + utf8Len c } : Replacinator).check_invariants
    else .error s

/-- Embeds `Replacinator::skip_char`: `read_char`, and if a character came out,
`write_char` it back; return the character read. -/
def skip_char (r : Replacinator) : Except Replacinator (Option Nat × Replacinator) :=
  r.read_char.bind fun p =>
    match p.1 with
    | some c => (p.2.write_char c).map fun s => (some c, s)
    | none => .ok (none, p.2)

/-- Embeds `Replacinator::synchronise`: fill `invalid_region` (the gap) with the
space character (`' ' as u32 = 32`), then `write_position = read_position`,
then `check_invariants`. -/
def synchronise (r : Replacinator) : Except Replacinator Replacinator :=
  r.check_invariants.bind fun s =>
    ({ s with
        contents := writeBytes s.contents s.write_position
          (List.replicate (s.read_position - s.write_position) 32),
        write_position := s.read_position } : Replacinator).check_invariants

/-- Embeds `Replacinator::take_start`: remember `pre = write_position`, call
`synchronise`, `split_at_mut` the buffer at `read_position` (a panic if
`read_position` exceeds the length), keep the back half as the new
`contents` with both cursors reset to 0, run `check_invariants`, and
return `front[..pre]`. The result triple is `(front, view, rest)`: the
whole front half that leaves the cursor (`start` in the source), the
returned view `front[..pre]`, and the new cursor state. -/
def take_start (r : Replacinator) : Except Replacinator (List Nat × List Nat × Replacinator) :=
  let pre := r.write_position
  r.synchronise.bind fun s =>
    if s.read_position ≤ s.contents.length then
      (({ contents := s.contents.drop s.read_position, read_position := 0,
          write_position := 0 } : Replacinator).check_invariants).map
        fun s2 => (s.contents.take s.read_position, (s.contents.take s.read_position).take pre, s2)
    else .error s

/-- Modelled from the spec: `get_begin`, the lighter extraction variant of
section 4.4, is called by `examples/json_parse.rs` but its definition is
not among the source files under `src/`. Per the spec, the region before
`write_position` is peeled off and returned as a view, the cursor's buffer
shrinks to start right after it, and the cursors are re-expressed relative
to the new start: `write_position` becomes 0 and `read_position` keeps its
absolute place, becoming `read_position - write_position`. -/
def get_begin (r : Replacinator) : List Nat × Replacinator :=
  (r.contents.take r.write_position,
   { contents := r.contents.drop r.write_position,
     read_position := r.read_position - r.write_position,
     write_position := 0 })

end Replacinator

/-- The buffer contents after `Drop for Replacinator` runs (`drop` calls
`synchronise`); if the `synchronise` inside `drop` itself panicked, the
memory holds whatever the panic state held. -/
def dropFinalize (r : Replacinator) : List Nat :=
  match r.synchronise with
  | .ok s => s.contents
  | .error e => e.contents

/-- Embeds `Replacinator::new_in`: construct a cursor over `s`, run the callback
on it, and (when the callback returns normally) return its result; the
cursor is dropped when the scope ends, which finalizes the buffer. The
second component is the buffer behind the borrow once it ends. -/
def new_in {R : Type} (s : List Nat) (f : Replacinator → R × Replacinator) : R × List Nat :=
  let p := f (Replacinator.construct s)
  (p.1, dropFinalize p.2)

/-- The data-model invariant of section 3 of the spec, and the conceptual
three-segment description at the top of `src/lib.rs`: cursor order, cursor
bounds, and validity of the start segment and of the remainder segment. -/
def CursorInv (r : Replacinator) : Prop :=
  r.write_position ≤ r.read_position ∧
  r.read_position ≤ r.contents.length ∧
  ValidUtf8 (r.contents.take r.write_position) ∧
  ValidUtf8 (r.contents.drop r.read_position)

/-- One operation of a caller-driven sequence: the API calls a callback
may perform against the cursor (the mutating ones). -/
inductive Op where
  | read
  | write (c : {c : Nat // IsScalar c})
  | skip
  | sync
  | take
  deriving DecidableEq

/-- Run one operation; an `ok` result carries the bytes this operation
split off the front of the underlying memory region (empty except for
`take_start`, which peels the whole front half) and the new cursor state. -/
def stepOp (r : Replacinator) : Op → Except Replacinator (List Nat × Replacinator)
  | .read => r.read_char.map fun p => ([], p.2)
  | .write c => (r.write_char c.val).map fun s => ([], s)
  | .skip => r.skip_char.map fun p => ([], p.2)
  | .sync => r.synchronise.map fun s => ([], s)
  | .take => r.take_start.map fun t => (t.1, t.2.2)

/-- Run a sequence of operations, returning the final cursor state (the
error carries the state at the panic that interrupted the sequence). -/
def runOps : Replacinator → List Op → Except Replacinator Replacinator
  | r, [] => .ok r
  | r, o :: os =>
    match stepOp r o with
    | .ok p => runOps p.2 os
    | .error e => .error e

/-- Run a sequence of operations, accumulating the bytes split off the
front of the memory region; on a panic, the error carries the bytes split
off so far and the state at the panic. In both cases the underlying
memory region is the returned bytes followed by the state's `contents`. -/
def runSeg : Replacinator → List Op → Except (List Nat × Replacinator) (List Nat × Replacinator)
  | r, [] => .ok ([], r)
  | r, o :: os =>
    match stepOp r o with
    | .error e => .error ([], e)
    | .ok p =>
      match runSeg p.2 os with
      | .ok q => .ok (p.1 ++ q.1, q.2)
      | .error q => .error (p.1 ++ q.1, q.2)

theorem check_invariants_ok' {r : Replacinator} (h1 : r.write_position ≤ r.read_position)
    (h2 : r.read_position ≤ r.contents.length) : r.check_invariants = .ok r := by
  unfold Replacinator.check_invariants
  rw [if_pos ⟨h1, h2⟩]

theorem check_invariants_ok {r : Replacinator} (h : CursorInv r) :
    r.check_invariants = .ok r :=
  check_invariants_ok' h.1 h.2.1

theorem construct_inv {s : List Nat} (hs : ValidUtf8 s) :
    CursorInv (Replacinator.construct s) := by
  refine ⟨Nat.le_refl 0, Nat.zero_le _, ?_, ?_⟩
  · exact ValidUtf8.nil
  · simpa [Replacinator.construct] using hs

/-- Facts recoverable from a successful head decode of the remainder of an
invariant-respecting cursor. -/
theorem remainder_decode {r : Replacinator} {p : Nat × Nat} (h : CursorInv r)
    (hd : decodeChar r.remainder = some p) :
    IsScalar p.1 ∧ p.2 = utf8Len p.1 ∧
    r.read_position + utf8Len p.1 ≤ r.contents.length ∧
    ValidUtf8 (r.contents.drop (r.read_position + utf8Len p.1)) := by
  obtain ⟨hsc, hn, hsplit⟩ := decodeChar_sound r.remainder p.1 p.2 (by simpa using hd)
  have hlen : utf8Len p.1 ≤ r.remainder.length := by
    have := congrArg List.length hsplit
    simp [encodeChar_length] at this
    omega
  have hrem : r.remainder.length = r.contents.length - r.read_position := by
    simp [Replacinator.remainder]
  have hle : r.read_position + utf8Len p.1 ≤ r.contents.length := by
    have := h.2.1
    omega
  refine ⟨hsc, hn, hle, ?_⟩
  have hdd : r.contents.drop (r.read_position + utf8Len p.1) =
      r.remainder.drop (utf8Len p.1) := by
    simp [Replacinator.remainder, List.drop_drop]
  rw [hdd, ← hn]
  exact h.2.2.2.drop_decode hd

theorem read_char_none {r : Replacinator} (h : CursorInv r)
    (hd : decodeChar r.remainder = none) :
    r.read_char = .ok (none, r) := by
  unfold Replacinator.read_char
  rw [hd, check_invariants_ok h]
  rfl

theorem read_char_some {r : Replacinator} {p : Nat × Nat} (h : CursorInv r)
    (hd : decodeChar r.remainder = some p) :
    r.read_char = .ok (some p.1, { r with read_position := r.read_position + utf8Len p.1 }) ∧
    CursorInv { r with read_position := r.read_position + utf8Len p.1 } := by
  obtain ⟨hsc, hn, hle, hvtail⟩ := remainder_decode h hd
  have hinv2 : CursorInv { r with read_position := r.read_position + utf8Len p.1 } := by
    refine ⟨?_, ?_, ?_, ?_⟩
    · show r.write_position ≤ r.read_position + utf8Len p.1
      have := h.1
      omega
    · exact hle
    · exact h.2.2.1
    · exact hvtail
  refine ⟨?_, hinv2⟩
  unfold Replacinator.read_char
  rw [hd]
  simp only
  rw [check_invariants_ok hinv2]
  rfl

theorem write_char_ok {r : Replacinator} {c : Nat} (h : CursorInv r)
    (hgap : utf8Len c ≤ r.read_position - r.write_position) :
    r.write_char c = .ok { r with
      contents := writeBytes r.contents r.write_position (encodeChar c),
      write_position := r.write_position + utf8Len c } := by
  have hwr : r.write_position + utf8Len c ≤ r.read_position := by
    have := h.1
    omega
  have hlen : (writeBytes r.contents r.write_position (encodeChar c)).length =
      r.contents.length := by
    apply writeBytes_length
    rw [encodeChar_length]
    have := h.2.1
    omega
  unfold Replacinator.write_char
  rw [check_invariants_ok h]
  show (if utf8Len c ≤ r.read_position - r.write_position then _ else _) = _
  rw [if_pos hgap]
  apply check_invariants_ok'
  · show r.write_position + utf8Len c ≤ r.read_position
    exact hwr
  · show r.read_position ≤ (writeBytes r.contents r.write_position (encodeChar c)).length
    rw [hlen]
    exact h.2.1

theorem write_char_inv {r : Replacinator} {c : Nat} (h : CursorInv r) (hc : IsScalar c)
    (hgap : utf8Len c ≤ r.read_position - r.write_position) :
    CursorInv { r with
      contents := writeBytes r.contents r.write_position (encodeChar c),
      write_position := r.write_position + utf8Len c } := by
  obtain ⟨h1, h2, h3, h4⟩ := h
  have hwlen : r.write_position + utf8Len c ≤ r.contents.length := by omega
  have hlen : (writeBytes r.contents r.write_position (encodeChar c)).length =
      r.contents.length := by
    apply writeBytes_length
    rw [encodeChar_length]
    omega
  refine ⟨?_, ?_, ?_, ?_⟩
  · show r.write_position + utf8Len c ≤ r.read_position
    omega
  · show r.read_position ≤ (writeBytes r.contents r.write_position (encodeChar c)).length
    omega
  · show ValidUtf8 ((writeBytes r.contents r.write_position (encodeChar c)).take
      (r.write_position + utf8Len c))
    have heq : (writeBytes r.contents r.write_position (encodeChar c)).take
        (r.write_position + utf8Len c) = r.contents.take r.write_position ++ encodeChar c := by
      rw [← encodeChar_length c]
      exact writeBytes_take_write _ _ _ (by omega)
    rw [heq]
    exact h3.append (validUtf8_encodeChar c hc)
  · show ValidUtf8 ((writeBytes r.contents r.write_position (encodeChar c)).drop
      r.read_position)
    have heq : (writeBytes r.contents r.write_position (encodeChar c)).drop r.read_position
        = r.contents.drop r.read_position := by
      apply writeBytes_drop_of_le
      · rw [encodeChar_length]
        omega
      · omega
    rw [heq]
    exact h4

theorem write_char_overflow {r : Replacinator} {c : Nat} (h : CursorInv r)
    (hgap : r.read_position - r.write_position < utf8Len c) :
    r.write_char c = .error r := by
  unfold Replacinator.write_char
  rw [check_invariants_ok h]
  show (if utf8Len c ≤ r.read_position - r.write_position then _ else _) = _
  rw [if_neg (by omega)]

theorem writeBytes_nil (l : List Nat) (i : Nat) : writeBytes l i [] = l := by
  simp [writeBytes]

/-- The state `synchronise` produces when its invariant checks pass: the
gap filled with spaces and the write cursor caught up to the read cursor. -/
def syncState (r : Replacinator) : Replacinator :=
  { r with
    contents := writeBytes r.contents r.write_position
      (List.replicate (r.read_position - r.write_position) 32),
    write_position := r.read_position }

theorem syncState_length {r : Replacinator} (h : CursorInv r) :
    (syncState r).contents.length = r.contents.length := by
  unfold syncState
  simp only
  apply writeBytes_length
  simp [List.length_replicate]
  have := h.1
  have := h.2.1
  omega

theorem syncState_take_read {r : Replacinator} (h : CursorInv r) :
    (syncState r).contents.take r.read_position =
      r.contents.take r.write_position ++ List.replicate (r.read_position - r.write_position) 32 := by
  unfold syncState
  simp only
  have hw := writeBytes_take_write r.contents
    (List.replicate (r.read_position - r.write_position) 32) r.write_position
    (by have := h.1; have := h.2.1; omega)
  have hlen : r.write_position + (List.replicate (r.read_position - r.write_position) 32).length
      = r.read_position := by
    simp [List.length_replicate]
    have := h.1
    omega
  rw [hlen] at hw
  exact hw

theorem syncState_take_write {r : Replacinator} (h : CursorInv r) :
    (syncState r).contents.take r.write_position = r.contents.take r.write_position := by
  unfold syncState
  simp only
  apply writeBytes_take_of_le
  · exact Nat.le_refl _
  · have := h.1
    have := h.2.1
    omega

theorem syncState_drop_read {r : Replacinator} (h : CursorInv r) :
    (syncState r).contents.drop r.read_position = r.contents.drop r.read_position := by
  unfold syncState
  simp only
  apply writeBytes_drop_of_le
  · simp [List.length_replicate]
    have := h.1
    omega
  · have := h.1
    have := h.2.1
    omega

theorem syncState_inv {r : Replacinator} (h : CursorInv r) : CursorInv (syncState r) := by
  refine ⟨Nat.le_refl _, ?_, ?_, ?_⟩
  · show r.read_position ≤ (syncState r).contents.length
    rw [syncState_length h]
    exact h.2.1
  · show ValidUtf8 ((syncState r).contents.take r.read_position)
    rw [syncState_take_read h]
    exact h.2.2.1.append (validUtf8_replicate_space _)
  · show ValidUtf8 ((syncState r).contents.drop r.read_position)
    rw [syncState_drop_read h]
    exact h.2.2.2

theorem synchronise_eq {r : Replacinator} (h : CursorInv r) :
    r.synchronise = .ok (syncState r) := by
  unfold Replacinator.synchronise
  rw [check_invariants_ok h]
  show (syncState r).check_invariants = _
  exact check_invariants_ok (syncState_inv h)

/-- Synchronising a synchronised state changes nothing: the gap is empty,
so the fill writes no byte and the cursors stay put. -/
theorem synchronise_syncState {r : Replacinator} (h : CursorInv r) :
    (syncState r).synchronise = .ok (syncState r) := by
  have h2 := syncState_inv h
  rw [synchronise_eq h2]
  have : syncState (syncState r) = syncState r := by
    unfold syncState
    simp only [Nat.sub_self, List.replicate_zero, writeBytes_nil]
  rw [this]

theorem skip_char_none {r : Replacinator} (h : CursorInv r)
    (hd : decodeChar r.remainder = none) :
    r.skip_char = .ok (none, r) := by
  unfold Replacinator.skip_char
  rw [read_char_none h hd]
  rfl

theorem skip_char_some {r : Replacinator} {p : Nat × Nat} (h : CursorInv r)
    (hd : decodeChar r.remainder = some p) :
    r.skip_char = .ok (some p.1, { r with
      contents := writeBytes r.contents r.write_position (encodeChar p.1),
      read_position := r.read_position + utf8Len p.1,
      write_position := r.write_position + utf8Len p.1 }) ∧
    CursorInv { r with
      contents := writeBytes r.contents r.write_position (encodeChar p.1),
      read_position := r.read_position + utf8Len p.1,
      write_position := r.write_position + utf8Len p.1 } := by
  obtain ⟨hread, hinv1⟩ := read_char_some h hd
  obtain ⟨hsc, hn, hle, hvtail⟩ := remainder_decode h hd
  set r1 : Replacinator := { r with read_position := r.read_position + utf8Len p.1 } with hr1
  have hgap : utf8Len p.1 ≤ r1.read_position - r1.write_position := by
    show utf8Len p.1 ≤ r.read_position + utf8Len p.1 - r.write_position
    have := h.1
    omega
  have hwrite := write_char_ok hinv1 hgap
  have hwinv := write_char_inv hinv1 hsc hgap
  constructor
  · unfold Replacinator.skip_char
    rw [hread]
    show (r1.write_char p.1).map _ = _
    rw [hwrite]
    rfl
  · exact hwinv

/-- The state `take_start` leaves behind: the back half of the split with
both cursors reset to 0. -/
def takeRest (r : Replacinator) : Replacinator :=
  { contents := r.contents.drop r.read_position, read_position := 0, write_position := 0 }

theorem takeRest_inv_of_sync {r : Replacinator} (h : CursorInv r) :
    CursorInv (takeRest (syncState r)) := by
  refine ⟨Nat.le_refl 0, Nat.zero_le _, ValidUtf8.nil, ?_⟩
  show ValidUtf8 ((takeRest (syncState r)).contents.drop 0)
  have : (takeRest (syncState r)).contents = r.contents.drop r.read_position := by
    unfold takeRest
    simp only
    show (syncState r).contents.drop (syncState r).read_position = _
    show (syncState r).contents.drop r.read_position = _
    exact syncState_drop_read h
  rw [this]
  simpa using h.2.2.2

theorem take_start_eq {r : Replacinator} (h : CursorInv r) :
    r.take_start = .ok
      (r.contents.take r.write_position ++ List.replicate (r.read_position - r.write_position) 32,
       r.contents.take r.write_position,
       takeRest (syncState r)) := by
  have hs := syncState_inv h
  unfold Replacinator.take_start
  rw [synchronise_eq h]
  show (if (syncState r).read_position ≤ (syncState r).contents.length then _ else _) = _
  rw [if_pos hs.2.1]
  have hck : (takeRest (syncState r)).check_invariants = .ok (takeRest (syncState r)) := by
    apply check_invariants_ok'
    · exact Nat.le_refl 0
    · exact Nat.zero_le _
  show Except.map _ ((takeRest (syncState r)).check_invariants) = _
  rw [hck]
  show Except.ok
      ((syncState r).contents.take (syncState r).read_position,
       ((syncState r).contents.take (syncState r).read_position).take r.write_position,
       takeRest (syncState r)) = _
  have hfront : (syncState r).contents.take (syncState r).read_position =
      r.contents.take r.write_position ++ List.replicate (r.read_position - r.write_position) 32 := by
    show (syncState r).contents.take r.read_position = _
    exact syncState_take_read h
  have hview : ((syncState r).contents.take (syncState r).read_position).take r.write_position =
      r.contents.take r.write_position := by
    rw [hfront]
    rw [List.take_append_eq_append_take]
    have h1 : (r.contents.take r.write_position).take r.write_position =
        r.contents.take r.write_position := by
      simp [List.take_take]
    have h2 : r.write_position - (r.contents.take r.write_position).length = 0 := by
      simp [List.length_take]
      have := h.1
      have := h.2.1
      omega
    rw [h1, h2]
    simp
  rw [hview, hfront]

/-- A successful step preserves the invariant; the bytes it peels off the
front of the memory are valid text; and memory is conserved: the peeled
bytes plus the new contents have the old contents' length. -/
theorem stepOp_ok_spec {r : Replacinator} {o : Op} {p : List Nat × Replacinator}
    (h : CursorInv r) (hstep : stepOp r o = .ok p) :
    ValidUtf8 p.1 ∧ CursorInv p.2 ∧ p.1.length + p.2.contents.length = r.contents.length := by
  cases o with
  | read =>
    simp only [stepOp] at hstep
    cases hd : decodeChar r.remainder with
    | none =>
      rw [read_char_none h hd] at hstep
      simp only [Except.map, Except.ok.injEq] at hstep
      rw [← hstep]
      exact ⟨ValidUtf8.nil, h, by simp⟩
    | some q =>
      obtain ⟨heq, hinv⟩ := read_char_some h hd
      rw [heq] at hstep
      simp only [Except.map, Except.ok.injEq] at hstep
      rw [← hstep]
      exact ⟨ValidUtf8.nil, hinv, by simp⟩
  | write c =>
    simp only [stepOp] at hstep
    by_cases hgap : utf8Len c.val ≤ r.read_position - r.write_position
    · rw [write_char_ok h hgap] at hstep
      simp only [Except.map, Except.ok.injEq] at hstep
      rw [← hstep]
      refine ⟨ValidUtf8.nil, write_char_inv h c.property hgap, ?_⟩
      have hlen : (writeBytes r.contents r.write_position (encodeChar c.val)).length =
          r.contents.length := by
        apply writeBytes_length
        rw [encodeChar_length]
        have := h.1
        have := h.2.1
        omega
      simpa using hlen
    · have hov := write_char_overflow h
        (show r.read_position - r.write_position < utf8Len c.val by omega)
      rw [hov] at hstep
      exact absurd hstep (by simp [Except.map])
  | skip =>
    simp only [stepOp] at hstep
    cases hd : decodeChar r.remainder with
    | none =>
      rw [skip_char_none h hd] at hstep
      simp only [Except.map, Except.ok.injEq] at hstep
      rw [← hstep]
      exact ⟨ValidUtf8.nil, h, by simp⟩
    | some q =>
      obtain ⟨heq, hinv⟩ := skip_char_some h hd
      rw [heq] at hstep
      simp only [Except.map, Except.ok.injEq] at hstep
      rw [← hstep]
      refine ⟨ValidUtf8.nil, hinv, ?_⟩
      obtain ⟨_, _, hle, _⟩ := remainder_decode h hd
      have hlen : (writeBytes r.contents r.write_position (encodeChar q.1)).length =
          r.contents.length := by
        apply writeBytes_length
        rw [encodeChar_length]
        have := h.1
        omega
      simpa using hlen
  | sync =>
    simp only [stepOp] at hstep
    rw [synchronise_eq h] at hstep
    simp only [Except.map, Except.ok.injEq] at hstep
    rw [← hstep]
    refine ⟨ValidUtf8.nil, syncState_inv h, ?_⟩
    simpa using syncState_length h
  | take =>
    simp only [stepOp] at hstep
    rw [take_start_eq h] at hstep
    simp only [Except.map, Except.ok.injEq] at hstep
    rw [← hstep]
    refine ⟨h.2.2.1.append (validUtf8_replicate_space _), takeRest_inv_of_sync h, ?_⟩
    have hwl : r.write_position ≤ r.contents.length := by
      have := h.1
      have := h.2.1
      omega
    have h1 : (r.contents.take r.write_position ++
        List.replicate (r.read_position - r.write_position) 32).length = r.read_position := by
      simp [List.length_take, List.length_replicate]
      have := h.1
      omega
    have h2 : (takeRest (syncState r)).contents.length =
        r.contents.length - r.read_position := by
      show ((syncState r).contents.drop (syncState r).read_position).length = _
      show ((syncState r).contents.drop r.read_position).length = _
      rw [syncState_drop_read h]
      simp
    simp only [h1, h2]
    have := h.2.1
    omega

/-- A failing step panics with the invariant intact and the buffer length
unchanged (the only panic reachable from an invariant-respecting state is
the write-overflow panic, which leaves the state untouched). -/
theorem stepOp_error_spec {r : Replacinator} {o : Op} {e : Replacinator}
    (h : CursorInv r) (hstep : stepOp r o = .error e) :
    CursorInv e ∧ e.contents.length = r.contents.length := by
  cases o with
  | read =>
    simp only [stepOp] at hstep
    cases hd : decodeChar r.remainder with
    | none =>
      rw [read_char_none h hd] at hstep
      exact absurd hstep (by simp [Except.map])
    | some q =>
      rw [(read_char_some h hd).1] at hstep
      exact absurd hstep (by simp [Except.map])
  | write c =>
    simp only [stepOp] at hstep
    by_cases hgap : utf8Len c.val ≤ r.read_position - r.write_position
    · rw [write_char_ok h hgap] at hstep
      exact absurd hstep (by simp [Except.map])
    · have hov := write_char_overflow h
        (show r.read_position - r.write_position < utf8Len c.val by omega)
      rw [hov] at hstep
      simp only [Except.map, Except.error.injEq] at hstep
      rw [← hstep]
      exact ⟨h, rfl⟩
  | skip =>
    simp only [stepOp] at hstep
    cases hd : decodeChar r.remainder with
    | none =>
      rw [skip_char_none h hd] at hstep
      exact absurd hstep (by simp [Except.map])
    | some q =>
      rw [(skip_char_some h hd).1] at hstep
      exact absurd hstep (by simp [Except.map])
  | sync =>
    simp only [stepOp] at hstep
    rw [synchronise_eq h] at hstep
    exact absurd hstep (by simp [Except.map])
  | take =>
    simp only [stepOp] at hstep
    rw [take_start_eq h] at hstep
    exact absurd hstep (by simp [Except.map])

theorem runOps_inv {ops : List Op} {r r' : Replacinator} (h : CursorInv r)
    (hrun : runOps r ops = .ok r') : CursorInv r' := by
  induction ops generalizing r with
  | nil =>
    unfold runOps at hrun
    simp only [Except.ok.injEq] at hrun
    rw [← hrun]
    exact h
  | cons o os ih =>
    unfold runOps at hrun
    cases hstep : stepOp r o with
    | ok p =>
      rw [hstep] at hrun
      exact ih (stepOp_ok_spec h hstep).2.1 hrun
    | error e =>
      rw [hstep] at hrun
      exact absurd hrun (by simp)

theorem runSeg_spec {ops : List Op} {r : Replacinator} (h : CursorInv r) :
    (∀ q, runSeg r ops = .ok q →
      ValidUtf8 q.1 ∧ CursorInv q.2 ∧ q.1.length + q.2.contents.length = r.contents.length) ∧
    (∀ q, runSeg r ops = .error q →
      ValidUtf8 q.1 ∧ CursorInv q.2 ∧ q.1.length + q.2.contents.length = r.contents.length) := by
  induction ops generalizing r with
  | nil =>
    constructor
    · intro q hq
      unfold runSeg at hq
      simp only [Except.ok.injEq] at hq
      rw [← hq]
      exact ⟨ValidUtf8.nil, h, by simp⟩
    · intro q hq
      unfold runSeg at hq
      exact absurd hq (by simp)
  | cons o os ih =>
    constructor
    · intro q hq
      unfold runSeg at hq
      split at hq
      · exact absurd hq (by simp)
      · rename_i p hstep
        obtain ⟨hseg, hinv, hlen⟩ := stepOp_ok_spec h hstep
        split at hq
        · rename_i q' hrest
          simp only [Except.ok.injEq] at hq
          obtain ⟨hs', hi', hl'⟩ := (ih hinv).1 q' hrest
          rw [← hq]
          refine ⟨hseg.append hs', hi', ?_⟩
          simp only [List.length_append]
          omega
        · exact absurd hq (by simp)
    · intro q hq
      unfold runSeg at hq
      split at hq
      · rename_i e hstep
        simp only [Except.error.injEq] at hq
        obtain ⟨hinv, hlen⟩ := stepOp_error_spec h hstep
        rw [← hq]
        exact ⟨ValidUtf8.nil, hinv, by simpa using hlen⟩
      · rename_i p hstep
        obtain ⟨hseg, hinv, hlen⟩ := stepOp_ok_spec h hstep
        split at hq
        · exact absurd hq (by simp)
        · rename_i q' hrest
          simp only [Except.error.injEq] at hq
          obtain ⟨hs', hi', hl'⟩ := (ih hinv).2 q' hrest
          rw [← hq]
          refine ⟨hseg.append hs', hi', ?_⟩
          simp only [List.length_append]
          omega

/-- Dropping an invariant-respecting cursor leaves valid text of the same
length in its buffer. -/
theorem dropFinalize_spec {r : Replacinator} (h : CursorInv r) :
    ValidUtf8 (dropFinalize r) ∧ (dropFinalize r).length = r.contents.length := by
  unfold dropFinalize
  rw [synchronise_eq h]
  constructor
  · show ValidUtf8 (syncState r).contents
    have hfull : (syncState r).contents =
        (syncState r).contents.take r.read_position ++
        (syncState r).contents.drop r.read_position := by
      rw [List.take_append_drop]
    rw [hfull, syncState_take_read h, syncState_drop_read h]
    exact (h.2.2.1.append (validUtf8_replicate_space _)).append h.2.2.2
  · exact syncState_length h

/-- C1: for every cursor constructed over a valid UTF-8 string and every
sequence of `read_char`/`write_char`/`skip_char`/`synchronise`/`take_start`
calls in which each `write_char` has a sufficient gap (equivalently: the
run completes without a panic — from an invariant-respecting state the
write-overflow panic is the only reachable one), after every call
`0 ≤ write_position ≤ read_position ≤ length contents`, the bytes before
`write_position` decode as valid UTF-8 and the bytes from `read_position`
on decode as valid UTF-8. Stated for an arbitrary operation sequence, so
it applies to every prefix of a longer sequence, i.e. after every call. -/
theorem claim_C1_invariant_preservation (s : List Nat) (ops : List Op) (r' : Replacinator)
    (hs : ValidUtf8 s) (hrun : runOps (Replacinator.construct s) ops = .ok r') :
    r'.write_position ≤ r'.read_position ∧
    r'.read_position ≤ r'.contents.length ∧
    ValidUtf8 (r'.contents.take r'.write_position) ∧
    ValidUtf8 (r'.contents.drop r'.read_position) :=
  runOps_inv (construct_inv hs) hrun

theorem claim_C1_witness :
    ValidUtf8 [97, 98] ∧
    runOps (Replacinator.construct [97, 98]) [Op.read] = .ok (⟨[97, 98], 1, 0⟩ : Replacinator) ∧
    ((⟨[97, 98], 1, 0⟩ : Replacinator).write_position ≤
      (⟨[97, 98], 1, 0⟩ : Replacinator).read_position ∧
     (⟨[97, 98], 1, 0⟩ : Replacinator).read_position ≤
      (⟨[97, 98], 1, 0⟩ : Replacinator).contents.length ∧
     ValidUtf8 ((⟨[97, 98], 1, 0⟩ : Replacinator).contents.take
      (⟨[97, 98], 1, 0⟩ : Replacinator).write_position) ∧
     ValidUtf8 ((⟨[97, 98], 1, 0⟩ : Replacinator).contents.drop
      (⟨[97, 98], 1, 0⟩ : Replacinator).read_position)) := by
  have hs : ValidUtf8 [97, 98] := validUtf8_ascii [97, 98] (by decide)
  exact ⟨hs, rfl,
    claim_C1_invariant_preservation [97, 98] [Op.read] ⟨[97, 98], 1, 0⟩ hs rfl⟩

/-- C2: `new_in` returns exactly the callback's result; and whether the
callback's operation sequence completes normally or panics partway
(unwinding), once the cursor is dropped the underlying memory region —
the bytes split off by extractions followed by the final buffer — is
valid UTF-8 of the original length. -/
theorem claim_C2_finalization_round_trip (s : List Nat) (hs : ValidUtf8 s) :
    (∀ (R : Type) (f : Replacinator → R × Replacinator),
      (new_in s f).1 = (f (Replacinator.construct s)).1) ∧
    (∀ ops q, runSeg (Replacinator.construct s) ops = .ok q →
      ValidUtf8 (q.1 ++ dropFinalize q.2) ∧ (q.1 ++ dropFinalize q.2).length = s.length) ∧
    (∀ ops q, runSeg (Replacinator.construct s) ops = .error q →
      ValidUtf8 (q.1 ++ dropFinalize q.2) ∧ (q.1 ++ dropFinalize q.2).length = s.length) := by
  refine ⟨fun R f => rfl, ?_, ?_⟩
  · intro ops q hq
    obtain ⟨hseg, hinv, hlen⟩ := (runSeg_spec (construct_inv hs)).1 q hq
    obtain ⟨hdv, hdl⟩ := dropFinalize_spec hinv
    refine ⟨hseg.append hdv, ?_⟩
    simp only [List.length_append, hdl]
    simpa [Replacinator.construct] using hlen
  · intro ops q hq
    obtain ⟨hseg, hinv, hlen⟩ := (runSeg_spec (construct_inv hs)).2 q hq
    obtain ⟨hdv, hdl⟩ := dropFinalize_spec hinv
    refine ⟨hseg.append hdv, ?_⟩
    simp only [List.length_append, hdl]
    simpa [Replacinator.construct] using hlen

theorem claim_C2_witness :
    ValidUtf8 [97] ∧
    runSeg (Replacinator.construct [97]) [Op.skip] =
      .ok ([], (⟨[97], 1, 1⟩ : Replacinator)) ∧
    ValidUtf8 ([] ++ dropFinalize (⟨[97], 1, 1⟩ : Replacinator)) ∧
    ([] ++ dropFinalize (⟨[97], 1, 1⟩ : Replacinator)).length = [97].length := by
  have hs : ValidUtf8 [97] := validUtf8_ascii [97] (by decide)
  have h := (claim_C2_finalization_round_trip [97] hs).2.1 [Op.skip]
    ([], (⟨[97], 1, 1⟩ : Replacinator)) rfl
  exact ⟨hs, rfl, h.1, h.2⟩

/-- Invariant builder for concrete all-ASCII example states. -/
theorem cursorInv_of_ascii (r : Replacinator) (h1 : r.write_position ≤ r.read_position)
    (h2 : r.read_position ≤ r.contents.length) (h3 : ∀ b ∈ r.contents, b < 128) :
    CursorInv r :=
  ⟨h1, h2,
   validUtf8_ascii _ fun b hb => h3 b (List.take_subset _ _ hb),
   validUtf8_ascii _ fun b hb => h3 b (List.drop_subset _ _ hb)⟩

/-- C3: from an invariant-respecting state, `take_start` synchronises and
then splits at `read_position`: the front half it peels off is the old
start segment followed by the space-filled gap, the returned view is
exactly the bytes below the pre-synchronisation `write_position` (the
bytes written since construction or the last extraction), and the cursor
afterwards holds exactly the former remainder with both cursors 0. -/
theorem claim_C3_take_start_exactness (r : Replacinator) (h : CursorInv r) :
    r.take_start = .ok
      (r.contents.take r.write_position ++
         List.replicate (r.read_position - r.write_position) 32,
       r.contents.take r.write_position,
       (⟨r.contents.drop r.read_position, 0, 0⟩ : Replacinator)) := by
  have heq := take_start_eq h
  have hrest : takeRest (syncState r) =
      (⟨r.contents.drop r.read_position, 0, 0⟩ : Replacinator) := by
    unfold takeRest
    have hdrop : (syncState r).contents.drop (syncState r).read_position =
        r.contents.drop r.read_position := syncState_drop_read h
    simp only [Replacinator.mk.injEq]
    exact ⟨hdrop, trivial, trivial⟩
  rw [hrest] at heq
  exact heq

theorem claim_C3_witness :
    CursorInv (⟨[97, 98], 1, 1⟩ : Replacinator) ∧
    (⟨[97, 98], 1, 1⟩ : Replacinator).take_start = .ok
      ([97] ++ List.replicate 0 32, [97], (⟨[98], 0, 0⟩ : Replacinator)) := by
  have hinv : CursorInv (⟨[97, 98], 1, 1⟩ : Replacinator) :=
    cursorInv_of_ascii _ (by decide) (by decide) (by decide)
  exact ⟨hinv, claim_C3_take_start_exactness (⟨[97, 98], 1, 1⟩ : Replacinator) hinv⟩

/-- C4: for a scalar `c` and an invariant-respecting state, if the gap is
at least `c`'s encoded length then `write_char` writes `c`'s encoding into
the buffer at `write_position` and advances `write_position` by that
length; for every smaller gap it panics, and the panic state is the
untouched input state (the buffer is neither grown nor shifted). -/
theorem claim_C4_write_char_gap (r : Replacinator) (c : Nat) (h : CursorInv r)
    (_hc : IsScalar c) :
    (utf8Len c ≤ r.read_position - r.write_position →
      r.write_char c = .ok { r with
        contents := writeBytes r.contents r.write_position (encodeChar c),
        write_position := r.write_position + utf8Len c }) ∧
    (r.read_position - r.write_position < utf8Len c →
      r.write_char c = .error r) :=
  ⟨fun hgap => write_char_ok h hgap, fun hgap => write_char_overflow h hgap⟩

theorem claim_C4_witness :
    CursorInv (⟨[97, 98], 1, 0⟩ : Replacinator) ∧ IsScalar 98 ∧ IsScalar 233 ∧
    (⟨[97, 98], 1, 0⟩ : Replacinator).write_char 98 =
      .ok (⟨[98, 98], 1, 1⟩ : Replacinator) ∧
    (⟨[97, 98], 1, 0⟩ : Replacinator).write_char 233 =
      .error (⟨[97, 98], 1, 0⟩ : Replacinator) := by
  have hinv : CursorInv (⟨[97, 98], 1, 0⟩ : Replacinator) :=
    cursorInv_of_ascii _ (by decide) (by decide) (by decide)
  refine ⟨hinv, by decide, by decide, ?_, ?_⟩
  · exact (claim_C4_write_char_gap (⟨[97, 98], 1, 0⟩ : Replacinator) 98 hinv
      (by decide)).1 (by decide)
  · exact (claim_C4_write_char_gap (⟨[97, 98], 1, 0⟩ : Replacinator) 233 hinv
      (by decide)).2 (by decide)

/-- C5: `synchronise` overwrites exactly the gap with the space character
(byte 32) and sets `write_position = read_position`, so the gap is empty
afterwards; and it is idempotent: running it again returns exactly the
same state. -/
theorem claim_C5_synchronise_idempotent (r : Replacinator) (h : CursorInv r) :
    ∃ r1, r.synchronise = .ok r1 ∧
      r1.contents = r.contents.take r.write_position ++
        List.replicate (r.read_position - r.write_position) 32 ++
        r.contents.drop r.read_position ∧
      r1.write_position = r.read_position ∧
      r1.read_position = r.read_position ∧
      r1.read_position - r1.write_position = 0 ∧
      r1.synchronise = .ok r1 := by
  refine ⟨syncState r, synchronise_eq h, ?_, rfl, rfl,
    by show r.read_position - r.read_position = 0; omega, synchronise_syncState h⟩
  show writeBytes r.contents r.write_position
      (List.replicate (r.read_position - r.write_position) 32) = _
  unfold writeBytes
  have hw : r.write_position + (List.replicate (r.read_position - r.write_position) 32).length
      = r.read_position := by
    rw [List.length_replicate]
    have := h.1
    omega
  rw [hw]

theorem claim_C5_witness :
    CursorInv (⟨[97, 98], 1, 0⟩ : Replacinator) ∧
    (∃ r1, (⟨[97, 98], 1, 0⟩ : Replacinator).synchronise = .ok r1 ∧
      r1.contents = List.take 0 [97, 98] ++ List.replicate (1 - 0) 32 ++
        List.drop 1 [97, 98] ∧
      r1.write_position = 1 ∧
      r1.read_position = 1 ∧
      r1.read_position - r1.write_position = 0 ∧
      r1.synchronise = .ok r1) := by
  have hinv : CursorInv (⟨[97, 98], 1, 0⟩ : Replacinator) :=
    cursorInv_of_ascii _ (by decide) (by decide) (by decide)
  exact ⟨hinv, claim_C5_synchronise_idempotent (⟨[97, 98], 1, 0⟩ : Replacinator) hinv⟩

/-- C6: from an invariant-respecting state, if the remainder starts with a
character then `skip_char` returns it, copies its encoding to the old
`write_position` (the written bytes equal the character's encoding) and
advances both cursors by its encoded length; if the remainder is empty it
returns nothing and mutates nothing. -/
theorem claim_C6_skip_is_copy_through (r : Replacinator) (h : CursorInv r) :
    (∀ p, decodeChar r.remainder = some p →
      r.skip_char = .ok (some p.1, { r with
        contents := writeBytes r.contents r.write_position (encodeChar p.1),
        read_position := r.read_position + utf8Len p.1,
        write_position := r.write_position + utf8Len p.1 }) ∧
      ((writeBytes r.contents r.write_position (encodeChar p.1)).drop
        r.write_position).take (utf8Len p.1) = encodeChar p.1) ∧
    (r.remainder = [] → r.skip_char = .ok (none, r)) := by
  constructor
  · intro p hd
    refine ⟨(skip_char_some h hd).1, ?_⟩
    rw [← encodeChar_length p.1]
    apply writeBytes_at_write
    have := h.1
    have := h.2.1
    omega
  · intro hrem
    apply skip_char_none h
    rw [hrem]
    rfl

theorem claim_C6_witness :
    CursorInv (⟨[97, 98], 1, 0⟩ : Replacinator) ∧
    CursorInv (⟨[97], 1, 1⟩ : Replacinator) ∧
    (⟨[97, 98], 1, 0⟩ : Replacinator).skip_char =
      .ok (some 98, (⟨[98, 98], 2, 1⟩ : Replacinator)) ∧
    ((writeBytes [97, 98] 0 (encodeChar 98)).drop 0).take (utf8Len 98) = encodeChar 98 ∧
    (⟨[97], 1, 1⟩ : Replacinator).skip_char = .ok (none, (⟨[97], 1, 1⟩ : Replacinator)) := by
  have hinv : CursorInv (⟨[97, 98], 1, 0⟩ : Replacinator) :=
    cursorInv_of_ascii _ (by decide) (by decide) (by decide)
  have hinv2 : CursorInv (⟨[97], 1, 1⟩ : Replacinator) :=
    cursorInv_of_ascii _ (by decide) (by decide) (by decide)
  have h1 := (claim_C6_skip_is_copy_through (⟨[97, 98], 1, 0⟩ : Replacinator) hinv).1
    (98, 1) rfl
  have h2 := (claim_C6_skip_is_copy_through (⟨[97], 1, 1⟩ : Replacinator) hinv2).2 rfl
  exact ⟨hinv, hinv2, h1.1, h1.2, h2⟩

/-- C10: write-overflow is atomic. When the gap is smaller than the
character's encoded length, the panic happens before any mutation (as
`char::encode_utf8` checks the destination slice's length before writing):
the panic state has exactly the original buffer and cursor positions. -/
theorem claim_C10_write_overflow_atomic (r : Replacinator) (c : Nat) (h : CursorInv r)
    (hgap : r.read_position - r.write_position < utf8Len c) :
    ∃ e, r.write_char c = .error e ∧ e.contents = r.contents ∧
      e.read_position = r.read_position ∧ e.write_position = r.write_position :=
  ⟨r, write_char_overflow h hgap, rfl, rfl, rfl⟩

theorem claim_C10_witness :
    CursorInv (⟨[98, 97, 98], 2, 1⟩ : Replacinator) ∧
    (∃ e, (⟨[98, 97, 98], 2, 1⟩ : Replacinator).write_char 960 = .error e ∧
      e.contents = [98, 97, 98] ∧ e.read_position = 2 ∧ e.write_position = 1) := by
  have hinv : CursorInv (⟨[98, 97, 98], 2, 1⟩ : Replacinator) :=
    cursorInv_of_ascii _ (by decide) (by decide) (by decide)
  exact ⟨hinv,
    claim_C10_write_overflow_atomic (⟨[98, 97, 98], 2, 1⟩ : Replacinator) 960 hinv
      (by decide)⟩

/-- C7 counterexample: `start` in `src/lib.rs` (lines 64-66) takes `&self`
and only returns a view of `contents[..write_position]`; it performs no
window-rebasing. At the invariant-respecting state with contents
`[97, 98]` and both cursors at 1, the cursor after `start` still has
`write_position = 1`, `read_position = 1`, and its full buffer — not the
claimed post-extraction state with the buffer shrunk past the peeled
region and both cursors rebased to 0. -/
theorem claim_C7_counterexample :
    CursorInv (⟨[97, 98], 1, 1⟩ : Replacinator) ∧
    ¬ (((⟨[97, 98], 1, 1⟩ : Replacinator).start).2.contents =
         List.drop 1 [97, 98] ∧
       ((⟨[97, 98], 1, 1⟩ : Replacinator).start).2.read_position = 0 ∧
       ((⟨[97, 98], 1, 1⟩ : Replacinator).start).2.write_position = 0) := by
  refine ⟨cursorInv_of_ascii _ (by decide) (by decide) (by decide), ?_⟩
  decide

/-- C7 (amended): `start` returns the view of the bytes below
`write_position` and leaves the cursor unchanged (it takes a shared
borrow); the rebasing extraction variant is `get_begin` (absent from
`src/`, modelled from the spec), which returns the same view, shrinks the
buffer to start right after it, rebases `write_position` to 0 and
`read_position` to `read_position - write_position`, preserves the
remainder, reassembles with its view to the original buffer, and
preserves the invariant. -/
theorem claim_C7_start_get_begin (r : Replacinator) (h : CursorInv r) :
    r.start = (r.contents.take r.write_position, r) ∧
    (r.get_begin).1 = r.contents.take r.write_position ∧
    (r.get_begin).2.contents = r.contents.drop r.write_position ∧
    (r.get_begin).2.write_position = 0 ∧
    (r.get_begin).2.read_position = r.read_position - r.write_position ∧
    (r.get_begin).1 ++ (r.get_begin).2.contents = r.contents ∧
    (r.get_begin).2.contents.drop (r.get_begin).2.read_position =
      r.contents.drop r.read_position ∧
    CursorInv (r.get_begin).2 := by
  have hdd : (r.contents.drop r.write_position).drop (r.read_position - r.write_position) =
      r.contents.drop r.read_position := by
    rw [List.drop_drop]
    congr 1
    have := h.1
    omega
  refine ⟨rfl, rfl, rfl, rfl, rfl, List.take_append_drop _ _, hdd, ?_⟩
  refine ⟨Nat.zero_le _, ?_, ValidUtf8.nil, ?_⟩
  · show r.read_position - r.write_position ≤ (r.contents.drop r.write_position).length
    simp only [List.length_drop]
    have := h.2.1
    omega
  · show ValidUtf8 ((r.contents.drop r.write_position).drop
      (r.read_position - r.write_position))
    rw [hdd]
    exact h.2.2.2

theorem claim_C7_witness :
    CursorInv (⟨[97, 98], 1, 1⟩ : Replacinator) ∧
    ((⟨[97, 98], 1, 1⟩ : Replacinator).start = ([97], (⟨[97, 98], 1, 1⟩ : Replacinator)) ∧
     ((⟨[97, 98], 1, 1⟩ : Replacinator).get_begin).1 = [97] ∧
     ((⟨[97, 98], 1, 1⟩ : Replacinator).get_begin).2.contents = [98] ∧
     ((⟨[97, 98], 1, 1⟩ : Replacinator).get_begin).2.write_position = 0 ∧
     ((⟨[97, 98], 1, 1⟩ : Replacinator).get_begin).2.read_position = 0 ∧
     ((⟨[97, 98], 1, 1⟩ : Replacinator).get_begin).1 ++
       ((⟨[97, 98], 1, 1⟩ : Replacinator).get_begin).2.contents = [97, 98] ∧
     ((⟨[97, 98], 1, 1⟩ : Replacinator).get_begin).2.contents.drop
       ((⟨[97, 98], 1, 1⟩ : Replacinator).get_begin).2.read_position = [98] ∧
     CursorInv ((⟨[97, 98], 1, 1⟩ : Replacinator).get_begin).2) := by
  have hinv : CursorInv (⟨[97, 98], 1, 1⟩ : Replacinator) :=
    cursorInv_of_ascii _ (by decide) (by decide) (by decide)
  exact ⟨hinv, claim_C7_start_get_begin (⟨[97, 98], 1, 1⟩ : Replacinator) hinv⟩

/-- C9 counterexample: `skip_char` can change a byte at or after the
call-start `read_position`, i.e. outside the call-start gap
`[write_position, read_position)`. From the invariant-respecting state
with contents `[88, 195, 169]` (the text `Xé` after reading `X`),
`read_position = 1`, `write_position = 0`, skipping `é` (scalar 233,
encoded `[195, 169]`) writes its two bytes at offset 0, changing the byte
at index 1 — which is at `read_position`, outside the start-of-call gap
`[0, 1)` — from 195 to 169. -/
theorem claim_C9_counterexample :
    CursorInv (⟨[88, 195, 169], 1, 0⟩ : Replacinator) ∧
    (⟨[88, 195, 169], 1, 0⟩ : Replacinator).skip_char =
      .ok (some 233, (⟨[195, 169, 169], 3, 2⟩ : Replacinator)) ∧
    ¬ ((⟨[195, 169, 169], 3, 2⟩ : Replacinator).contents.drop
         (⟨[88, 195, 169], 1, 0⟩ : Replacinator).read_position =
       (⟨[88, 195, 169], 1, 0⟩ : Replacinator).contents.drop
         (⟨[88, 195, 169], 1, 0⟩ : Replacinator).read_position) := by
  refine ⟨?_, rfl, by decide⟩
  refine ⟨by decide, by decide, ?_, ?_⟩
  · show ValidUtf8 (List.take 0 [88, 195, 169])
    exact ValidUtf8.nil
  · show ValidUtf8 (List.drop 1 [88, 195, 169])
    have he : encodeChar 233 = [195, 169] := by decide
    show ValidUtf8 [195, 169]
    exact he ▸ validUtf8_encodeChar 233 (by decide)

/-- C9 (amended): no operation writes outside the gap it is entitled to.
`read_char` never mutates the buffer; `write_char` with a sufficient gap
and `synchronise` change no byte outside the call-start gap
`[write_position, read_position)`; `skip_char` on a character of encoded
length `n` changes no byte outside `[write_position, read_position + n)`
— the call-start gap extended by the bytes of the character it consumes,
which its internal `write_char` may overwrite (with equal bytes only when
the gap is empty or at least `n`). `peek` is a non-mutating view by its
shared borrow. All buffer lengths are preserved. -/
theorem claim_C9_frame_effect (r : Replacinator) (h : CursorInv r) :
    (∀ q, r.read_char = .ok q → q.2.contents = r.contents) ∧
    (∀ c, IsScalar c → utf8Len c ≤ r.read_position - r.write_position →
      ∀ r1, r.write_char c = .ok r1 →
        r1.contents.take r.write_position = r.contents.take r.write_position ∧
        r1.contents.drop r.read_position = r.contents.drop r.read_position ∧
        r1.contents.length = r.contents.length) ∧
    (∀ r1, r.synchronise = .ok r1 →
        r1.contents.take r.write_position = r.contents.take r.write_position ∧
        r1.contents.drop r.read_position = r.contents.drop r.read_position ∧
        r1.contents.length = r.contents.length) ∧
    (∀ p, decodeChar r.remainder = some p →
      ∀ q, r.skip_char = .ok q →
        q.2.contents.take r.write_position = r.contents.take r.write_position ∧
        q.2.contents.drop (r.read_position + utf8Len p.1) =
          r.contents.drop (r.read_position + utf8Len p.1) ∧
        q.2.contents.length = r.contents.length) := by
  have hw := h.1
  have hr := h.2.1
  refine ⟨?_, ?_, ?_, ?_⟩
  · intro q hq
    cases hd : decodeChar r.remainder with
    | none =>
      rw [read_char_none h hd] at hq
      simp only [Except.ok.injEq] at hq
      rw [← hq]
    | some p =>
      rw [(read_char_some h hd).1] at hq
      simp only [Except.ok.injEq] at hq
      rw [← hq]
  · intro c _hc hgap r1 hq
    rw [write_char_ok h hgap] at hq
    simp only [Except.ok.injEq] at hq
    rw [← hq]
    show (writeBytes r.contents r.write_position (encodeChar c)).take r.write_position =
        _ ∧ (writeBytes r.contents r.write_position (encodeChar c)).drop r.read_position =
        _ ∧ (writeBytes r.contents r.write_position (encodeChar c)).length = _
    refine ⟨?_, ?_, ?_⟩
    · exact writeBytes_take_of_le _ _ _ _ (Nat.le_refl _) (by omega)
    · exact writeBytes_drop_of_le _ _ _ _ (by rw [encodeChar_length]; omega) (by omega)
    · exact writeBytes_length _ _ _ (by rw [encodeChar_length]; omega)
  · intro r1 hq
    rw [synchronise_eq h] at hq
    simp only [Except.ok.injEq] at hq
    rw [← hq]
    exact ⟨syncState_take_write h, syncState_drop_read h, syncState_length h⟩
  · intro p hd q hq
    obtain ⟨hsc, hn, hle, hvtail⟩ := remainder_decode h hd
    rw [(skip_char_some h hd).1] at hq
    simp only [Except.ok.injEq] at hq
    rw [← hq]
    show (writeBytes r.contents r.write_position (encodeChar p.1)).take r.write_position =
        _ ∧ (writeBytes r.contents r.write_position (encodeChar p.1)).drop
          (r.read_position + utf8Len p.1) =
        _ ∧ (writeBytes r.contents r.write_position (encodeChar p.1)).length = _
    refine ⟨?_, ?_, ?_⟩
    · exact writeBytes_take_of_le _ _ _ _ (Nat.le_refl _) (by omega)
    · exact writeBytes_drop_of_le _ _ _ _ (by rw [encodeChar_length]; omega) (by omega)
    · exact writeBytes_length _ _ _ (by rw [encodeChar_length]; omega)

theorem claim_C9_witness :
    CursorInv (⟨[97, 98], 1, 0⟩ : Replacinator) ∧
    ((⟨[97, 98], 2, 0⟩ : Replacinator).contents = [97, 98]) ∧
    ([98, 98] : List Nat).take 0 = ([97, 98] : List Nat).take 0 ∧
    ([98, 98] : List Nat).drop 1 = ([97, 98] : List Nat).drop 1 ∧
    ([98, 98] : List Nat).length = ([97, 98] : List Nat).length ∧
    ([32, 98] : List Nat).drop 1 = ([97, 98] : List Nat).drop 1 ∧
    ([98, 98] : List Nat).drop 2 = ([97, 98] : List Nat).drop 2 := by
  have hinv : CursorInv (⟨[97, 98], 1, 0⟩ : Replacinator) :=
    cursorInv_of_ascii _ (by decide) (by decide) (by decide)
  obtain ⟨hread, hwrite, hsync, hskip⟩ := claim_C9_frame_effect (⟨[97, 98], 1, 0⟩ : Replacinator) hinv
  have h1 := hread (some 98, (⟨[97, 98], 2, 0⟩ : Replacinator)) rfl
  have h2 := hwrite 98 (by decide) (by decide) (⟨[98, 98], 1, 1⟩ : Replacinator) rfl
  have h3 := hsync (⟨[32, 98], 1, 1⟩ : Replacinator) rfl
  have h4 := hskip (98, 1) rfl (some 98, (⟨[98, 98], 2, 1⟩ : Replacinator)) rfl
  exact ⟨hinv, h1, h2.1, h2.2.1, h2.2.2, h3.2.1, h4.2.1⟩

/-- Embeds `char::to_digit(16)`, as used for the `\uXXXX` escape digits in
`examples/json_parse.rs`. -/
def hexVal (c : Nat) : Option Nat :=
  if 48 ≤ c ∧ c ≤ 57 then some (c - 48)
  else if 97 ≤ c ∧ c ≤ 102 then some (c - 87)
  else if 65 ≤ c ∧ c ≤ 70 then some (c - 55)
  else none

/-- Collapse a panicking computation to `none`: the consumer's `expect`
and `panic!` calls abort the parse. -/
def okPart {e a : Type} : Except e a → Option a
  | .ok x => some x
  | .error _ => none

/-- Running state of the example consumer `parse_json_array`
(`examples/json_parse.rs`): the bytes peeled off the front of the original
buffer by `get_begin` so far, the cursor, and the collected string values. -/
structure PState where
  segs : List Nat
  r : Replacinator
  values : List (List Nat)
  deriving DecidableEq

/-- The 4-digit hex loop of the `\u` escape branch: `res = res * 16 + v`
over four `read_char`/`to_digit(16)` rounds. -/
def readHex (k acc : Nat) (r : Replacinator) : Option (Nat × Replacinator) :=
  match k with
  | 0 => some (acc, r)
  | k' + 1 =>
    (okPart r.read_char).bind fun p =>
      match p.1 with
      | some c => (hexVal c).bind fun v => readHex k' (acc * 16 + v) p.2
      | none => none

/-- The escape-decoding `match` of `parse_json_array`: given the character
after the backslash, write the decoded character (panic on an invalid
escape, a bad hex digit, or a code point `char::from_u32` rejects). -/
def unescapeChar (c : Nat) (r : Replacinator) : Option Replacinator :=
  if c = 34 then okPart (r.write_char 34)
  else if c = 92 then okPart (r.write_char 92)
  else if c = 47 then okPart (r.write_char 47)
  else if c = 98 then okPart (r.write_char 8)
  else if c = 102 then okPart (r.write_char 12)
  else if c = 110 then okPart (r.write_char 10)
  else if c = 114 then okPart (r.write_char 13)
  else if c = 116 then okPart (r.write_char 9)
  else if c = 117 then
    (readHex 4 0 r).bind fun p =>
      if IsScalar p.1 then okPart (p.2.write_char p.1) else none
  else none

/-- The inner string loop of `parse_json_array`: read a character; on a
backslash decode the escape; on a closing quote push `get_begin`'s view
into the values, write the quote back, and stop; otherwise copy the
character through. `fuel` bounds the iteration count (each iteration
consumes at least one byte of input). -/
def parseStringBody : Nat → PState → Option PState
  | 0, _ => none
  | fuel + 1, st =>
    (okPart st.r.read_char).bind fun p =>
      match p.1 with
      | none => none
      | some c =>
        if c = 92 then
          (okPart p.2.read_char).bind fun q =>
            match q.1 with
            | none => none
            | some e =>
              (unescapeChar e q.2).bind fun r2 =>
                parseStringBody fuel { st with r := r2 }
        else if c = 34 then
          (okPart ((p.2.get_begin).2.write_char 34)).map fun r2 =>
            { segs := st.segs ++ (p.2.get_begin).1,
              r := r2,
              values := st.values ++ [(p.2.get_begin).1] }
        else
          (okPart (p.2.write_char c)).bind fun r2 =>
            parseStringBody fuel { st with r := r2 }

/-- The outer array loop of `parse_json_array`: `skip_char` a structural
character; a quote starts a string (whose leading bytes are first peeled
off by the discarded `get_begin`), a closing bracket ends the array,
whitespace is skipped, anything else is a panic. -/
def parseArrayLoop : Nat → PState → Option PState
  | 0, _ => none
  | fuel + 1, st =>
    (okPart st.r.skip_char).bind fun p =>
      match p.1 with
      | none => none
      | some c =>
        if c = 34 then
          (parseStringBody fuel
            { segs := st.segs ++ ((p.2.get_begin).1), r := (p.2.get_begin).2,
              values := st.values }).bind fun st2 =>
            parseArrayLoop fuel st2
        else if c = 93 then some { st with r := p.2 }
        else if c = 32 ∨ c = 10 ∨ c = 9 then parseArrayLoop fuel { st with r := p.2 }
        else none

/-- Embeds `parse_json_array` of `examples/json_parse.rs`: assert the leading
`[` (copied through), then run the array loop. -/
def parse_json_array (fuel : Nat) (st : PState) : Option PState :=
  (okPart st.r.skip_char).bind fun p =>
    match p.1 with
    | some c => if c = 91 then parseArrayLoop fuel { st with r := p.2 } else none
    | none => none

/-- Scenario C of the spec: the 7-byte input `["a\n"]` driven through
`parse_json_array` inside `new_in` (so the cursor is dropped — and the
buffer finalized — after the parse). The result is the extracted string
values and the final state of the whole original memory region: the bytes
peeled off by `get_begin` followed by the finalized buffer. -/
def scenarioC : Option (List (List Nat) × List Nat) :=
  (parse_json_array 16
      { segs := [], r := Replacinator.construct [91, 34, 97, 92, 110, 34, 93],
        values := [] }).map
    fun st => (st.values, st.segs ++ dropFinalize st.r)

/-- C8: on the input `[`,`"`,`a`,`\`,`n`,`"`,`]` the consumer yields
exactly one string, `a` followed by a line feed (2 bytes), and after
finalization the original 7-byte memory region reads
`[`,`"`,`a`,LF,`"`,`]`,space — the byte freed by the shrinking escape is
overwritten with the filler and the length is unchanged, as valid text. -/
theorem claim_C8_shrinking_escape :
    scenarioC = some ([[97, 10]], [91, 34, 97, 10, 34, 93, 32]) ∧
    ValidUtf8 [91, 34, 97, 10, 34, 93, 32] ∧
    ([91, 34, 97, 10, 34, 93, 32] : List Nat).length =
      ([91, 34, 97, 92, 110, 34, 93] : List Nat).length :=
  ⟨rfl, validUtf8_ascii _ (by decide), rfl⟩
